import Mathlib

/-!
Shallow embedding of the qgis-topodata-downloader plugin core
(`src/download_raster_worker.py`, `src/unzip_worker.py`,
`src/spatial_analysis.py`) together with theorems settling the
specification claims about it.

File-system paths in the shared working directory are modelled
structurally: the working directory is fixed (both workers use a single
destination directory), so a path inside it is identified by its stem,
an optional numeric collision counter (the `_1`, `_2`, … suffix produced
by `move_tif_files`), and its extension.  Distinct triples denote
distinct candidate names tried by the renaming loop, which is all the
collision logic depends on.
-/

namespace Topodata

/-- A payload file name as decomposed by `os.path.splitext`:
`filename = stem ++ ext`. -/
structure FileName where
  stem : String
  ext : String
deriving DecidableEq, Repr

/-- A path in the working (destination) directory: the base stem, an
optional collision counter (`some k` models the `_k` suffix inserted
before the extension by `move_tif_files`), and the extension. -/
structure DPath where
  stem : String
  counter : Option Nat
  ext : String
deriving DecidableEq, Repr

/-- Model of `os.path.join(self.unzip_dir_path, filename)`: the initial
destination path of a payload file, before any collision renaming. -/
def mkDest (f : FileName) : DPath :=
  ⟨f.stem, none, f.ext⟩

/-- The candidate `f"{name}_{counter}{ext}"` built inside the renaming
loop of `move_tif_files`. -/
def mkCand (f : FileName) (k : Nat) : DPath :=
  ⟨f.stem, some k, f.ext⟩

/-- The `while os.path.exists(dest_path)` loop of `move_tif_files`
(src/unzip_worker.py lines 96-103), with explicit fuel: starting from
`dest` and `counter`, as long as the current candidate exists in the
destination directory `fs`, try `mkCand f counter` and increment the
counter.  Returns `none` when the fuel runs out. -/
def collisionLoop : Nat → Finset DPath → FileName → Nat → DPath → Option DPath
  | 0, _, _, _, _ => none
  | fuel + 1, fs, f, counter, dest =>
      if dest ∈ fs then collisionLoop fuel fs f (counter + 1) (mkCand f counter)
      else some dest

/-- The destination path actually used by `shutil.move`: run the
renaming loop from the base destination with counter 1.  `fs.card + 2`
units of fuel always suffice (`collisionLoop_findFree`). -/
def findFree (fs : Finset DPath) (f : FileName) : DPath :=
  (collisionLoop (fs.card + 2) fs f 1 (mkDest f)).getD (mkDest f)

/-- State threaded through `move_tif_files`: the set of files existing
in the destination directory and the worker's recorded list
`self.unzip_files`. -/
structure MoveState where
  fs : Finset DPath
  recorded : List DPath
deriving DecidableEq

/-- One iteration of the `for tif_file in tif_files` loop of
`move_tif_files` (src/unzip_worker.py lines 89-105).  Note the source
appends `dest_path` to `self.unzip_files` BEFORE the collision-renaming
loop runs; the file itself is then moved to the collision-free path. -/
def move_one (s : MoveState) (f : FileName) : MoveState :=
  let recorded := s.recorded ++ [mkDest f]
  let dest := findFree s.fs f
  { fs := insert dest s.fs, recorded := recorded }

/-- Model of `move_tif_files` (src/unzip_worker.py lines 87-105). -/
def move_tif_files (s : MoveState) (tifs : List FileName) : MoveState :=
  tifs.foldl move_one s

/-!
Extract Stage: `UnzipWorker` (src/unzip_worker.py).

An archive is modelled by its observable outcome for this worker:
it extracts cleanly and yields a list of payload (`.tif`) file names
(found by the recursive scan `find_tif_files`), or opening/extracting
raises `zipfile.BadZipFile`, or extraction raises some other exception.
Temporary extraction directories (`tempfile.mkdtemp`) are identified by
a fresh counter.  Signal emissions are recorded in an event trace; the
`yieldTurn` event marks a deferral to a fresh scheduler turn
(`QTimer.singleShot`) — the extract worker's source contains no such
deferral, so the extract model never emits it, while the fetch model
(below) emits one at every `QTimer.singleShot(0, self.download_next)`.
-/

/-- Observable outcome of one archive for `unzip_next`:
either extraction succeeds and relocation of all found payload files
completes (`ok`), or opening raises `zipfile.BadZipFile` (`corrupt`),
or a generic exception is raised before relocation starts — in
`create_temp_dir`-adjacent code, `extract_zip` or `find_tif_files` —
(`failUnexpected`), or extraction and the scan succeed, finding `tifs`,
and then `shutil.move` raises on the file at position `j` of the
payload list (`failMoving tifs j`): the files before position `j` were
fully relocated, the failing file's destination path had already been
appended to `self.unzip_files` (line 93 precedes the move at line 105),
and the `except Exception` handler then fires. -/
inductive ZipOutcome where
  | ok (tifs : List FileName)
  | corrupt
  | failUnexpected
  | failMoving (tifs : List FileName) (j : Nat)
deriving DecidableEq, Repr

/-- Signals emitted by `UnzipWorker` (plus the scheduler-turn marker).
The `started` banner emitted once by `start()` is omitted: no claim
concerns it. -/
inductive UEvent where
  | progress (i total : Nat)
  | errorNoTif (idx : Nat)
  | errorCorrupt (idx : Nat)
  | errorGeneric (idx : Nat)
  | finished (paths : List DPath)
  | yieldTurn
deriving DecidableEq, Repr

/-- Mutable state of `UnzipWorker`: `self.total_files`,
`self.current_index`, `self.unzip_files`, plus the modelled file system
(destination-directory contents `fs`, extant temporary directories
`temps` with the `mkdtemp` freshness counter `nextTemp`) and the trace
of emitted events. -/
structure UState where
  total_files : Nat
  current_index : Nat
  unzip_files : List DPath
  fs : Finset DPath
  nextTemp : Nat
  temps : Finset Nat
  events : List UEvent
deriving DecidableEq

/-- The error events emitted while processing one archive, by outcome
(`emit_tif_warning`, `emit_corrupted_error`, `emit_generic_error`). -/
def archEvents (idx : Nat) (z : ZipOutcome) : List UEvent :=
  match z with
  | .ok tifs => if tifs.isEmpty then [.errorNoTif idx] else []
  | .corrupt => [.errorCorrupt idx]
  | .failUnexpected => [.errorGeneric idx]
  | .failMoving _ _ => [.errorGeneric idx]

/-- The `try` body of `unzip_next` (src/unzip_worker.py lines 44-59) for
the current archive: create a temporary directory, extract, scan for
payload files, move them (or warn), and — on the success path only —
remove the temporary directory.  When extraction raises
(`BadZipFile` or a generic exception) control jumps to the `except`
handlers, which emit an error and do NOT reach `cleanup_temp_dir`, so
the temporary directory stays in `temps`.  In the `failMoving tifs j`
case the per-file loop of `move_tif_files` completed its first `j`
iterations (those files moved and recorded), the iteration for file `j`
performed its append (line 93) and then `shutil.move` raised, so the
recorded list keeps the partial appends including the failing file's
pre-collision path, and cleanup is likewise skipped. -/
def processArchive (s : UState) (z : ZipOutcome) : UState :=
  let t := s.nextTemp
  match z with
  | .ok tifs =>
      if tifs.isEmpty then
        { s with nextTemp := t + 1,
                 temps := (insert t s.temps).erase t,
                 events := s.events ++ archEvents s.current_index (.ok tifs) }
      else
        let m := move_tif_files ⟨s.fs, s.unzip_files⟩ tifs
        { s with nextTemp := t + 1,
                 temps := (insert t s.temps).erase t,
                 fs := m.fs, unzip_files := m.recorded,
                 events := s.events ++ archEvents s.current_index (.ok tifs) }
  | .corrupt =>
      { s with nextTemp := t + 1, temps := insert t s.temps,
               events := s.events ++ archEvents s.current_index .corrupt }
  | .failUnexpected =>
      { s with nextTemp := t + 1, temps := insert t s.temps,
               events := s.events ++ archEvents s.current_index .failUnexpected }
  | .failMoving tifs j =>
      let m := move_tif_files ⟨s.fs, s.unzip_files⟩ (tifs.take j)
      { s with nextTemp := t + 1, temps := insert t s.temps,
               fs := m.fs,
               unzip_files := m.recorded ++ ((tifs.drop j).take 1).map mkDest,
               events := s.events
                 ++ archEvents s.current_index (.failMoving tifs j) }

/-- Model of `update_progress` (src/unzip_worker.py lines 126-130): increment the
index and emit `progress`.  The source then calls `self.unzip_next()`
directly — a synchronous recursive call, with no scheduler deferral
(no `yieldTurn` is emitted); the recursion is the call of `unzipGo` on
the remaining archive list below. -/
def update_progress (s : UState) : UState :=
  { s with current_index := s.current_index + 1,
           events := s.events ++ [.progress (s.current_index + 1) s.total_files] }

/-- One full `unzip_next` activation for one archive: the `try` body /
`except` handlers followed by the `finally: self.update_progress()`. -/
def unzipStep (s : UState) (z : ZipOutcome) : UState :=
  update_progress (processArchive s z)

/-- The state reached after processing a list of archives one by one. -/
def unzipSteps (zs : List ZipOutcome) (s : UState) : UState :=
  zs.foldl unzipStep s

/-- The synchronous recursion of `unzip_next` (src/unzip_worker.py lines
36-61): `unzipGo rest s` models an activation of `unzip_next` when
`rest` is the sublist of `self.zip_files` from `self.current_index` on
(so `rest = []` iff `self.current_index >= self.total_files`, the guard
at line 38, given the initialisation below).  The terminal case emits
`finished(self.unzip_files)` exactly as line 39 does. -/
def unzipGo : List ZipOutcome → UState → UState
  | [], s => { s with events := s.events ++ [.finished s.unzip_files] }
  | z :: rest, s => unzipGo rest (unzipStep s z)

/-- The constructor state of `UnzipWorker` (src/unzip_worker.py lines
22-29) followed by `start()`: index 0, empty result list, no temporary
directories; `fs0` is whatever already exists in the shared
zip/destination directory. -/
def initU (zips : List ZipOutcome) (fs0 : Finset DPath) : UState :=
  { total_files := zips.length, current_index := 0, unzip_files := [],
    fs := fs0, nextTemp := 0, temps := ∅, events := [] }

/-- A complete Extract Stage run. -/
def runUnzip (zips : List ZipOutcome) (fs0 : Finset DPath) : UState :=
  unzipGo zips (initU zips fs0)

/-- Number of destination-path appends an archive performs on
`self.unzip_files` (the append at line 93 runs once per payload file
whose relocation is attempted): every payload file of a fully relocated
archive; none for a corrupt archive or a pre-relocation failure; the
first `j` files plus the failing one when `shutil.move` raises at
position `j`. -/
def zCount : ZipOutcome → Nat
  | .ok tifs => tifs.length
  | .corrupt => 0
  | .failUnexpected => 0
  | .failMoving tifs j => (tifs.take j).length + ((tifs.drop j).take 1).length

/-- Total number of destination-path appends performed over a list of
archives. -/
def appendTotal (zs : List ZipOutcome) : Nat :=
  (zs.map zCount).sum

/-- Projection extracting the index of a `progress` event. -/
def progOf : UEvent → Option Nat
  | .progress i _ => some i
  | _ => none

/-- Projection extracting the payload of a `finished` event. -/
def finOf : UEvent → Option (List DPath)
  | .finished ps => some ps
  | _ => none

/-- Test for the scheduler-turn marker among extract-stage events. -/
def isUYield : UEvent → Bool
  | .yieldTurn => true
  | _ => false

/-!
Fetch Stage: `DownloadWorker` (src/download_raster_worker.py).

Each locator's transfer is modelled by its observable outcome: the
reply finishes without a network error and the body is saved (or saving
raises, the `except` at line 95), or `errorOccurred` fires with a
transport error.  Per the documented Qt semantics used by the source:
`errorOccurred` is followed by the reply's `finished` signal, and
`abort()` raises `OperationCanceledError` through both.  After a
transport error, `handle_error` runs `cleanup_and_continue` (setting
`self.reply = None`), so the subsequent `handle_finished` slot raises
`AttributeError` on `self.reply.error()` before emitting anything; an
exception escaping a slot is reported by the host and has no further
effect on the worker's state, so it contributes nothing to the trace.

A cancellation request is an external input; `CancelMoment` records the
one point of the run at which `cancel()` is called (the flag is
monotonic, so a single moment suffices).  `download_progress` events
and the `sslErrors` lambda are not modelled — no claim concerns them;
the `started` banner of `start()` and the unreachable duplicate
index check at lines 52-55 are likewise omitted. -/

/-- Observable outcome of one locator's transfer, when it is not
aborted by cancellation. -/
inductive ItemOutcome where
  | saveOk
  | saveFail
  | transportErr
deriving DecidableEq, Repr

/-- The point of the run at which `cancel()` is called:
`before k` = after item `k - 1`'s completion and before activation `k`
of `download_next` (so `before 0` = before any item starts);
`mid k` = while item `k`'s transfer is in flight; `never` = not at
all. -/
inductive CancelMoment where
  | never
  | before (k : Nat)
  | mid (k : Nat)
deriving DecidableEq, Repr

/-- Classification of an `error` signal emission. -/
inductive ErrKind where
  | transport
  | write
deriving DecidableEq, Repr

/-- Signals emitted by `DownloadWorker`, plus the scheduler-turn marker
for `QTimer.singleShot(0, self.download_next)`.  `savedMsg` is the
`started` signal reused at line 94 to report a saved file. -/
inductive DEvent where
  | file_started (name : String) (idx : Nat)
  | savedMsg
  | file_finished
  | error (kind : ErrKind) (idx : Nat)
  | finished (dest : String) (paths : List String)
  | yieldTurn
deriving DecidableEq, Repr

/-- Mutable state of `DownloadWorker`: `self.current_index`,
`self._is_canceled`, `self.zip_files_downloaded`, and the trace of
emitted signals. -/
structure DState where
  current_index : Nat
  canceled : Bool
  zip_files_downloaded : List String
  events : List DEvent
deriving DecidableEq, Repr

/-- Model of `os.path.basename`: the component after the last slash. -/
def basename (s : String) : String :=
  (s.splitOn "/").getLastD ""

/-- Model of `os.path.join(self.dest_path, zip_name)`. -/
def joinPath (dest name : String) : String :=
  dest ++ "/" ++ name

/-- One locator together with its transfer outcome. -/
abbrev Item := String × ItemOutcome

/-- Effect of `cancel()` (src/download_raster_worker.py lines 38-41)
when it is scheduled at the current activation boundary: set the
monotonic flag.  (`self.reply.abort()` matters only for the `mid`
moment, handled inside `downloadGo`.) -/
def deliverCancel (cancel : CancelMoment) (s : DState) : DState :=
  if cancel = .before s.current_index then { s with canceled := true } else s

/-- Model of `cleanup_and_continue` (src/download_raster_worker.py lines
110-116): release the reply, emit `file_finished`, advance the index
and defer the next `download_next` to a fresh scheduler turn
(`QTimer.singleShot` — recorded as `yieldTurn`). -/
def cleanupAndContinue (s : DState) : DState :=
  { s with events := s.events ++ [.file_finished, .yieldTurn],
           current_index := s.current_index + 1 }

/-- Emission of the terminal `finished` signal (lines 46, 49, 103). -/
def emitFinished (dest : String) (s : DState) : DState :=
  { s with events := s.events ++ [.finished dest s.zip_files_downloaded] }

/-- One item's transfer and its handlers (src/download_raster_worker.py
lines 57-116), mirroring the source: emit `file_started`; if `cancel()`
arrives mid-flight, `abort()` fires `errorOccurred` → `handle_error`
(lines 100-104), whose canceled branch emits `finished` and returns
WITHOUT cleanup, after which the reply's `finished` signal runs
`handle_finished` → `cleanup_and_continue` (and the deferred
`download_next` will see the flag and emit `finished` a second time).
Otherwise `handle_finished` (lines 77-98) either records the saved path
(plus the `started` "saved" message) or emits a write error, or
`handle_error` emits a transport error; each is followed by
`cleanup_and_continue`. -/
def itemEffect (cancel : CancelMoment) (dest : String) (u : String)
    (o : ItemOutcome) (s : DState) : DState :=
  let s : DState := { s with
    events := s.events ++ [DEvent.file_started (basename u) s.current_index] }
  if cancel = CancelMoment.mid s.current_index then
    cleanupAndContinue (emitFinished dest { s with canceled := true })
  else
    match o with
    | .saveOk =>
        cleanupAndContinue
          { s with
            zip_files_downloaded :=
              s.zip_files_downloaded ++ [joinPath dest (basename u)],
            events := s.events ++ [DEvent.savedMsg] }
    | .saveFail =>
        cleanupAndContinue
          { s with events :=
              s.events ++ [DEvent.error ErrKind.write s.current_index] }
    | .transportErr =>
        cleanupAndContinue
          { s with events :=
              s.events ++ [DEvent.error ErrKind.transport s.current_index] }

/-- The sequencing of `download_next` activations (lines 43-66):
`items` is the sublist of `self.urls` from `self.current_index` on,
paired with each transfer's outcome (so `items = []` iff
`self.current_index >= self.total_urls`, the guard at line 48).  Each
activation runs the canceled check of lines 45-47, then either stops
with the terminal `finished` or performs one item's transfer
(`itemEffect`) followed — via the `yieldTurn` recorded by
`cleanup_and_continue` — by the next activation. -/
def downloadGo (cancel : CancelMoment) (dest : String) :
    List Item → DState → DState
  | [], s =>
      emitFinished dest (deliverCancel cancel s)
  | (u, o) :: rest, s =>
      let s := deliverCancel cancel s
      if s.canceled then emitFinished dest s
      else downloadGo cancel dest rest (itemEffect cancel dest u o s)

/-- A complete Fetch Stage run: constructor state (lines 23-32) then
`start()`'s deferred first `download_next`. -/
def runDownload (items : List Item) (dest : String) (cancel : CancelMoment) : DState :=
  downloadGo cancel dest items ⟨0, false, [], []⟩

/-- The local paths successfully written for a list of items
(one `os.path.join(dest, basename url)` per `saveOk` item). -/
def pathsOf (dest : String) (items : List Item) : List String :=
  items.filterMap fun it =>
    if it.2 = .saveOk then some (joinPath dest (basename it.1)) else none

/-- The trace of one uncancelled item. -/
def itemTrace (i : Nat) (it : Item) : List DEvent :=
  match it.2 with
  | .saveOk =>
      [.file_started (basename it.1) i, .savedMsg, .file_finished, .yieldTurn]
  | .saveFail =>
      [.file_started (basename it.1) i, .error .write i, .file_finished, .yieldTurn]
  | .transportErr =>
      [.file_started (basename it.1) i, .error .transport i, .file_finished, .yieldTurn]

/-- The trace of a sequence of uncancelled items starting at index `i`. -/
def runTrace : Nat → List Item → List DEvent
  | _, [] => []
  | i, it :: rest => itemTrace i it ++ runTrace (i + 1) rest

/-- Test for `error` signal emissions among fetch-stage events. -/
def isDError : DEvent → Bool
  | .error _ _ => true
  | _ => false

/-- Test for terminal `finished` emissions among fetch-stage events. -/
def isDFinished : DEvent → Bool
  | .finished _ _ => true
  | _ => false

/-- Test for the scheduler-turn marker among fetch-stage events. -/
def isDYield : DEvent → Bool
  | .yieldTurn => true
  | _ => false

/-!
Spatial analysis: `analyze_polygon_against_grid`
(src/spatial_analysis.py lines 125-186).

Geometries are modelled as finite point sets, which supports the three
predicates the source calls: `isEmpty`, `within` (the geometry is
non-empty and every point lies in the other — GEOS `within` is false
for an empty geometry), and `intersects` (common point exists).  Both
layers are taken in a common CRS: the conditional reprojection at lines
146-149 is the identity transform in that case, which is the situation
every claim about this function quantifies over.  A layer is a list of
features; each grid feature carries its `tile_code` attribute (the
`KeyError` branch at lines 166-169 is outside the valid-layer
hypothesis).  Python's `sorted(set(...))` at line 185 is
`Finset.sort (· ≤ ·)` of the `toFinset` of the collected codes. -/

/-- A geometry: a finite set of points. -/
abbrev Geom := Finset (Int × Int)

/-- Model of `geom.isEmpty()`. -/
def gIsEmpty (g : Geom) : Bool := decide (g = ∅)

/-- Model of `a.within(b)`. -/
def gWithin (a b : Geom) : Bool := decide (a.Nonempty ∧ a ⊆ b)

/-- Model of `a.intersects(b)`. -/
def gIntersects (a b : Geom) : Bool := decide ((a ∩ b).Nonempty)

/-- One result dict appended to `results` (lines 172-182). -/
structure AnalysisRow where
  polygon_index : Nat
  tile_code : String
  relation : String
deriving DecidableEq, Repr

/-- The body of the inner `for grid_feat in grid_layer.getFeatures()`
loop (lines 161-182) for one grid feature: skip empty cells, then
record `within` or `intersects`. -/
def rowForCell (idx : Nat) (pg : Geom) (gc : Geom × String) :
    Option AnalysisRow :=
  if gIsEmpty gc.1 then none
  else if gWithin pg gc.1 then some ⟨idx, gc.2, "within"⟩
  else if gIntersects pg gc.1 then some ⟨idx, gc.2, "intersects"⟩
  else none

/-- The outer `for poly_feat in poly_layer.getFeatures()` loop (lines
153-182), accumulating `results`; `i` numbers the polygon features
(`poly_feat.id()`). -/
def analyzeRowsAux : Nat → List Geom → List (Geom × String) → List AnalysisRow
  | _, [], _ => []
  | i, pg :: ps, grid =>
      (if gIsEmpty pg then [] else grid.filterMap (rowForCell i pg))
        ++ analyzeRowsAux (i + 1) ps grid

/-- Model of `analyze_polygon_against_grid` (lines 125-186): collect the result
rows, then return `sorted(set(r["tile_code"] for r in results))`. -/
def analyze_polygon_against_grid (polys : List Geom)
    (grid : List (Geom × String)) : List String :=
  ((analyzeRowsAux 0 polys grid).map AnalysisRow.tile_code).toFinset.sort (· ≤ ·)

/-- Modelled from the spec's words: "the polygon region" covered by the
polygon layer — the union of its feature geometries. -/
def polygonRegion (polys : List Geom) : Geom :=
  polys.foldr (· ∪ ·) ∅

/-- Modelled from the spec's words: "the sorted set of unique tile
codes whose grid cell is contained in or intersects the region". -/
def specTileCodes (polys : List Geom) (grid : List (Geom × String)) :
    List String :=
  ((grid.filter fun gc =>
      gWithin gc.1 (polygonRegion polys)
        || gIntersects gc.1 (polygonRegion polys)).map Prod.snd).toFinset.sort
    (· ≤ ·)

/-! Lemmas about the collision-renaming loop. -/

/-- A path returned by the renaming loop does not exist in the
destination directory. -/
theorem collisionLoop_not_mem :
    ∀ (fuel : Nat) (fs : Finset DPath) (f : FileName) (c : Nat) (d d' : DPath),
      collisionLoop fuel fs f c d = some d' → d' ∉ fs := by
  intro fuel
  induction fuel with
  | zero => intro fs f c d d' h; simp [collisionLoop] at h
  | succ n ih =>
      intro fs f c d d' h
      rw [collisionLoop] at h
      by_cases hd : d ∈ fs
      · rw [if_pos hd] at h
        exact ih fs f (c + 1) (mkCand f c) d' h
      · rw [if_neg hd] at h
        cases h
        exact hd

/-- If some candidate within the fuel window is free, the loop
succeeds. -/
theorem collisionLoop_isSome :
    ∀ (fuel : Nat) (fs : Finset DPath) (f : FileName) (c : Nat) (d : DPath),
      (d ∉ fs ∨ ∃ k, c ≤ k ∧ k < c + fuel ∧ mkCand f k ∉ fs) →
      (collisionLoop (fuel + 1) fs f c d).isSome := by
  intro fuel
  induction fuel with
  | zero =>
      intro fs f c d h
      rcases h with h | ⟨k, hk1, hk2, _⟩
      · rw [collisionLoop, if_neg h]; rfl
      · omega
  | succ n ih =>
      intro fs f c d h
      rw [collisionLoop]
      by_cases hd : d ∈ fs
      · rw [if_pos hd]
        rcases h with h | ⟨k, hk1, hk2, hk3⟩
        · exact absurd hd h
        · rcases Nat.eq_or_lt_of_le hk1 with heq | hlt
          · exact ih fs f (c + 1) (mkCand f c) (Or.inl (by rw [heq]; exact hk3))
          · exact ih fs f (c + 1) (mkCand f c) (Or.inr ⟨k, hlt, by omega, hk3⟩)
      · rw [if_neg hd]; rfl

/-- Pigeonhole: among the candidates `_1 … _(card fs + 1)` at least one
does not exist in the destination directory. -/
theorem exists_free_candidate (fs : Finset DPath) (f : FileName) :
    ∃ k, 1 ≤ k ∧ k < fs.card + 2 ∧ mkCand f k ∉ fs := by
  by_contra hall
  push_neg at hall
  have hmaps : ∀ k ∈ Finset.Ico 1 (fs.card + 2), mkCand f k ∈ fs := by
    intro k hk
    rw [Finset.mem_Ico] at hk
    exact hall k hk.1 hk.2
  have hinj : Set.InjOn (mkCand f) (Finset.Ico 1 (fs.card + 2)) := by
    intro a _ b _ hab
    simpa [mkCand, DPath.mk.injEq] using hab
  have hcard := Finset.card_le_card_of_injOn (mkCand f) hmaps hinj
  rw [Nat.card_Ico] at hcard
  omega

/-- The renaming loop, run as `findFree` does with `fs.card + 2` units
of fuel, always terminates with a path that does not exist. -/
theorem collisionLoop_findFree (fs : Finset DPath) (f : FileName) :
    collisionLoop (fs.card + 2) fs f 1 (mkDest f) = some (findFree fs f) ∧
      findFree fs f ∉ fs := by
  obtain ⟨k, hk1, hk2, hk3⟩ := exists_free_candidate fs f
  have hsome : (collisionLoop (fs.card + 1 + 1) fs f 1 (mkDest f)).isSome :=
    collisionLoop_isSome (fs.card + 1) fs f 1 (mkDest f)
      (Or.inr ⟨k, hk1, by omega, hk3⟩)
  obtain ⟨d, hd⟩ := Option.isSome_iff_exists.mp hsome
  have heq : collisionLoop (fs.card + 2) fs f 1 (mkDest f) = some d := hd
  have hfind : findFree fs f = d := by
    rw [findFree, heq]; rfl
  refine ⟨by rw [heq, hfind], ?_⟩
  rw [hfind]
  exact collisionLoop_not_mem (fs.card + 2) fs f 1 (mkDest f) d heq

/-! Basic lemmas about one archive step. -/

theorem move_one_recorded (s : MoveState) (f : FileName) :
    (move_one s f).recorded = s.recorded ++ [mkDest f] := rfl

theorem move_recorded_length :
    ∀ (tifs : List FileName) (s : MoveState),
      (move_tif_files s tifs).recorded.length = s.recorded.length + tifs.length := by
  intro tifs
  induction tifs with
  | nil => intro s; simp [move_tif_files]
  | cons f rest ih =>
      intro s
      show (move_tif_files (move_one s f) rest).recorded.length = _
      rw [ih, move_one]
      simp
      omega

theorem processArchive_current_index (s : UState) (z : ZipOutcome) :
    (processArchive s z).current_index = s.current_index := by
  cases z with
  | ok tifs => by_cases h : tifs.isEmpty <;> simp [processArchive, h]
  | corrupt => rfl
  | failUnexpected => rfl
  | failMoving tifs j => rfl

theorem processArchive_total (s : UState) (z : ZipOutcome) :
    (processArchive s z).total_files = s.total_files := by
  cases z with
  | ok tifs => by_cases h : tifs.isEmpty <;> simp [processArchive, h]
  | corrupt => rfl
  | failUnexpected => rfl
  | failMoving tifs j => rfl

theorem processArchive_events (s : UState) (z : ZipOutcome) :
    (processArchive s z).events = s.events ++ archEvents s.current_index z := by
  cases z with
  | ok tifs => by_cases h : tifs.isEmpty <;> simp [processArchive, h]
  | corrupt => rfl
  | failUnexpected => rfl
  | failMoving tifs j => rfl

theorem processArchive_len (s : UState) (z : ZipOutcome) :
    (processArchive s z).unzip_files.length = s.unzip_files.length + zCount z := by
  cases z with
  | ok tifs =>
      by_cases h : tifs.isEmpty
      · have : tifs = [] := List.isEmpty_iff.mp h
        subst this
        simp [processArchive, zCount]
      · simp only [processArchive, h, if_false, zCount]
        exact move_recorded_length tifs ⟨s.fs, s.unzip_files⟩
  | corrupt => simp [processArchive, zCount]
  | failUnexpected => simp [processArchive, zCount]
  | failMoving tifs j =>
      simp only [processArchive, zCount, List.length_append, List.length_map]
      rw [move_recorded_length]
      dsimp only
      omega

theorem archEvents_progOf (i : Nat) (z : ZipOutcome) :
    (archEvents i z).filterMap progOf = [] := by
  cases z with
  | ok tifs => by_cases h : tifs.isEmpty <;> simp [archEvents, h, progOf]
  | corrupt => simp [archEvents, progOf]
  | failUnexpected => simp [archEvents, progOf]
  | failMoving tifs j => simp [archEvents, progOf]

theorem archEvents_finOf (i : Nat) (z : ZipOutcome) :
    (archEvents i z).filterMap finOf = [] := by
  cases z with
  | ok tifs => by_cases h : tifs.isEmpty <;> simp [archEvents, h, finOf]
  | corrupt => simp [archEvents, finOf]
  | failUnexpected => simp [archEvents, finOf]
  | failMoving tifs j => simp [archEvents, finOf]

theorem archEvents_yield (i : Nat) (z : ZipOutcome) :
    (archEvents i z).countP isUYield = 0 := by
  cases z with
  | ok tifs => by_cases h : tifs.isEmpty <;> simp [archEvents, h, isUYield, List.countP_cons]
  | corrupt => simp [archEvents, isUYield, List.countP_cons]
  | failUnexpected => simp [archEvents, isUYield, List.countP_cons]
  | failMoving tifs j => simp [archEvents, isUYield, List.countP_cons]

theorem unzipStep_current_index (s : UState) (z : ZipOutcome) :
    (unzipStep s z).current_index = s.current_index + 1 := by
  simp [unzipStep, update_progress, processArchive_current_index]

theorem unzipStep_total (s : UState) (z : ZipOutcome) :
    (unzipStep s z).total_files = s.total_files := by
  simp [unzipStep, update_progress, processArchive_total]

theorem unzipStep_len (s : UState) (z : ZipOutcome) :
    (unzipStep s z).unzip_files.length = s.unzip_files.length + zCount z := by
  simp [unzipStep, update_progress, processArchive_len]

theorem unzipStep_events (s : UState) (z : ZipOutcome) :
    (unzipStep s z).events =
      s.events ++ archEvents s.current_index z
        ++ [.progress (s.current_index + 1) s.total_files] := by
  simp [unzipStep, update_progress, processArchive_events,
    processArchive_current_index, processArchive_total]

/-! Lemmas about a sequence of archive steps. -/

theorem unzipSteps_cons (z : ZipOutcome) (rest : List ZipOutcome) (s : UState) :
    unzipSteps (z :: rest) s = unzipSteps rest (unzipStep s z) := rfl

theorem unzipSteps_current_index :
    ∀ (zs : List ZipOutcome) (s : UState),
      (unzipSteps zs s).current_index = s.current_index + zs.length := by
  intro zs
  induction zs with
  | nil => intro s; simp [unzipSteps]
  | cons z rest ih =>
      intro s
      rw [unzipSteps_cons, ih, unzipStep_current_index]
      simp
      omega

theorem unzipSteps_total :
    ∀ (zs : List ZipOutcome) (s : UState),
      (unzipSteps zs s).total_files = s.total_files := by
  intro zs
  induction zs with
  | nil => intro s; rfl
  | cons z rest ih =>
      intro s
      rw [unzipSteps_cons, ih, unzipStep_total]

theorem unzipSteps_len :
    ∀ (zs : List ZipOutcome) (s : UState),
      (unzipSteps zs s).unzip_files.length =
        s.unzip_files.length + appendTotal zs := by
  intro zs
  induction zs with
  | nil => intro s; simp [unzipSteps, appendTotal]
  | cons z rest ih =>
      intro s
      rw [unzipSteps_cons, ih, unzipStep_len]
      simp [appendTotal]
      omega

theorem unzipSteps_progOf :
    ∀ (zs : List ZipOutcome) (s : UState),
      (unzipSteps zs s).events.filterMap progOf =
        s.events.filterMap progOf ++ List.range' (s.current_index + 1) zs.length := by
  intro zs
  induction zs with
  | nil => intro s; simp [unzipSteps, List.range']
  | cons z rest ih =>
      intro s
      rw [unzipSteps_cons, ih, unzipStep_events, unzipStep_current_index]
      simp [List.filterMap_append, archEvents_progOf, progOf, List.range'_succ]

theorem unzipSteps_finOf :
    ∀ (zs : List ZipOutcome) (s : UState),
      (unzipSteps zs s).events.filterMap finOf = s.events.filterMap finOf := by
  intro zs
  induction zs with
  | nil => intro s; rfl
  | cons z rest ih =>
      intro s
      rw [unzipSteps_cons, ih, unzipStep_events]
      simp [List.filterMap_append, archEvents_finOf, finOf]

theorem unzipSteps_yield :
    ∀ (zs : List ZipOutcome) (s : UState),
      (unzipSteps zs s).events.countP isUYield = s.events.countP isUYield := by
  intro zs
  induction zs with
  | nil => intro s; rfl
  | cons z rest ih =>
      intro s
      rw [unzipSteps_cons, ih, unzipStep_events]
      simp [List.countP_append, archEvents_yield, isUYield]

/-- The synchronous recursion of `unzip_next` is the fold of the
per-archive step followed by the single terminal `finished` emission. -/
theorem unzipGo_eq :
    ∀ (zs : List ZipOutcome) (s : UState),
      unzipGo zs s =
        { unzipSteps zs s with
          events := (unzipSteps zs s).events
            ++ [.finished (unzipSteps zs s).unzip_files] } := by
  intro zs
  induction zs with
  | nil => intro s; rfl
  | cons z rest ih =>
      intro s
      rw [unzipGo, unzipSteps_cons, ih]

theorem unzipGo_events (zs : List ZipOutcome) (s : UState) :
    (unzipGo zs s).events =
      (unzipSteps zs s).events ++ [.finished (unzipSteps zs s).unzip_files] := by
  rw [unzipGo_eq]

theorem unzipGo_current_index (zs : List ZipOutcome) (s : UState) :
    (unzipGo zs s).current_index = s.current_index + zs.length := by
  rw [unzipGo_eq]
  exact unzipSteps_current_index zs s

theorem unzipGo_unzip_files (zs : List ZipOutcome) (s : UState) :
    (unzipGo zs s).unzip_files = (unzipSteps zs s).unzip_files := by
  rw [unzipGo_eq]

/-! Field lemmas for the fetch-stage helpers. -/

theorem deliverCancel_current_index (c : CancelMoment) (s : DState) :
    (deliverCancel c s).current_index = s.current_index := by
  rw [deliverCancel]; split <;> rfl

theorem deliverCancel_paths (c : CancelMoment) (s : DState) :
    (deliverCancel c s).zip_files_downloaded = s.zip_files_downloaded := by
  rw [deliverCancel]; split <;> rfl

theorem deliverCancel_events (c : CancelMoment) (s : DState) :
    (deliverCancel c s).events = s.events := by
  rw [deliverCancel]; split <;> rfl

theorem deliverCancel_never (s : DState) : deliverCancel .never s = s := rfl

theorem deliverCancel_of_ne (c : CancelMoment) (s : DState)
    (h : c ≠ .before s.current_index) : deliverCancel c s = s := by
  rw [deliverCancel, if_neg h]

theorem deliverCancel_fire (s : DState) :
    deliverCancel (.before s.current_index) s = { s with canceled := true } := by
  rw [deliverCancel, if_pos rfl]

theorem itemEffect_current_index (cancel : CancelMoment) (dest u : String)
    (o : ItemOutcome) (s : DState) :
    (itemEffect cancel dest u o s).current_index = s.current_index + 1 := by
  rw [itemEffect.eq_def]
  dsimp only
  split
  · rfl
  · cases o <;> rfl

theorem itemEffect_paths_le (cancel : CancelMoment) (dest u : String)
    (o : ItemOutcome) (s : DState) :
    (itemEffect cancel dest u o s).zip_files_downloaded.length ≤
      s.zip_files_downloaded.length + 1 := by
  rw [itemEffect.eq_def]
  dsimp only
  split
  · simp [cleanupAndContinue, emitFinished]
  · cases o <;> simp [cleanupAndContinue]

theorem itemEffect_of_not_mid (cancel : CancelMoment) (dest u : String)
    (o : ItemOutcome) (s : DState)
    (h : cancel ≠ .mid s.current_index) :
    itemEffect cancel dest u o s =
      { s with
        current_index := s.current_index + 1,
        zip_files_downloaded := s.zip_files_downloaded ++
          (if o = .saveOk then [joinPath dest (basename u)] else []),
        events := s.events ++ itemTrace s.current_index (u, o) } := by
  rw [itemEffect.eq_def]
  dsimp only
  rw [if_neg h]
  cases o <;> simp [cleanupAndContinue, itemTrace]

theorem itemEffect_of_mid (dest u : String) (o : ItemOutcome) (s : DState) :
    itemEffect (.mid s.current_index) dest u o s =
      { s with
        current_index := s.current_index + 1,
        canceled := true,
        events := s.events ++
          [.file_started (basename u) s.current_index,
           .finished dest s.zip_files_downloaded,
           .file_finished, .yieldTurn] } := by
  rw [itemEffect.eq_def]
  dsimp only
  rw [if_pos rfl]
  simp [cleanupAndContinue, emitFinished]

/-! Trace lemmas for uncancelled item sequences. -/

theorem itemTrace_error_count (i : Nat) (it : Item) :
    (itemTrace i it).countP isDError =
      (if it.2 = .saveOk then 0 else 1) := by
  obtain ⟨u, o⟩ := it
  cases o <;> simp [itemTrace, isDError, List.countP_cons]

theorem pathsOf_cons (dest : String) (it : Item) (rest : List Item) :
    pathsOf dest (it :: rest) =
      (if it.2 = .saveOk then [joinPath dest (basename it.1)] else [])
        ++ pathsOf dest rest := by
  obtain ⟨u, o⟩ := it
  cases o <;> simp [pathsOf]

theorem pathsOf_length_add_errors :
    ∀ (items : List Item) (i : Nat) (dest : String),
      (pathsOf dest items).length + (runTrace i items).countP isDError =
        items.length := by
  intro items
  induction items with
  | nil => intro i dest; simp [pathsOf, runTrace]
  | cons it rest ih =>
      intro i dest
      rw [runTrace, pathsOf_cons]
      simp only [List.length_append, List.countP_append, itemTrace_error_count]
      have := ih (i + 1) dest
      by_cases h : it.2 = .saveOk <;> simp [h] <;> omega

theorem runTrace_no_finished :
    ∀ (items : List Item) (i : Nat),
      (runTrace i items).countP isDFinished = 0 := by
  intro items
  induction items with
  | nil => intro i; rfl
  | cons it rest ih =>
      intro i
      obtain ⟨u, o⟩ := it
      rw [runTrace]
      cases o <;>
        simp [itemTrace, isDFinished, List.countP_append, List.countP_cons, ih]

theorem runTrace_yield_count :
    ∀ (items : List Item) (i : Nat),
      (runTrace i items).countP isDYield = items.length := by
  intro items
  induction items with
  | nil => intro i; rfl
  | cons it rest ih =>
      intro i
      obtain ⟨u, o⟩ := it
      rw [runTrace]
      cases o <;>
        simp [itemTrace, isDYield, List.countP_append, List.countP_cons, ih]

theorem runTrace_file_started_lt :
    ∀ (items : List Item) (i : Nat) (nm : String) (j : Nat),
      DEvent.file_started nm j ∈ runTrace i items → j < i + items.length := by
  intro items
  induction items with
  | nil => intro i nm j h; simp [runTrace] at h
  | cons it rest ih =>
      intro i nm j h
      obtain ⟨u, o⟩ := it
      rw [runTrace, List.mem_append] at h
      rcases h with h | h
      · have hj : j = i := by
          cases o <;> simp [itemTrace] at h <;> exact h.2
        simp only [List.length_cons]
        omega
      · have := ih (i + 1) nm j h
        simp only [List.length_cons]
        omega

/-! Run characterizations for the fetch stage. -/

/-- The completed-path list never exceeds one entry per remaining item,
whatever the cancellation moment and outcomes. -/
theorem downloadGo_paths_le :
    ∀ (items : List Item) (cancel : CancelMoment) (dest : String) (s : DState),
      (downloadGo cancel dest items s).zip_files_downloaded.length ≤
        s.zip_files_downloaded.length + items.length := by
  intro items
  induction items with
  | nil =>
      intro cancel dest s
      simp [downloadGo, emitFinished, deliverCancel_paths]
  | cons it rest ih =>
      intro cancel dest s
      obtain ⟨u, o⟩ := it
      rw [downloadGo]
      by_cases hc : (deliverCancel cancel s).canceled = true
      · rw [if_pos hc]
        have hdc : (deliverCancel cancel s).zip_files_downloaded.length =
            s.zip_files_downloaded.length := by rw [deliverCancel_paths]
        simp only [emitFinished, List.length_cons]
        omega
      · rw [if_neg hc]
        have hle := ih cancel dest (itemEffect cancel dest u o (deliverCancel cancel s))
        have heff := itemEffect_paths_le cancel dest u o (deliverCancel cancel s)
        have hdc : (deliverCancel cancel s).zip_files_downloaded.length =
            s.zip_files_downloaded.length := by rw [deliverCancel_paths]
        simp only [List.length_cons]
        omega

/-- Characterization of an uncancelled run: every item is processed,
contributing its trace, and the terminal `finished` is emitted once
with the successful paths in order. -/
theorem downloadGo_never :
    ∀ (items : List Item) (dest : String) (s : DState),
      s.canceled = false →
      downloadGo .never dest items s =
        ⟨s.current_index + items.length, false,
         s.zip_files_downloaded ++ pathsOf dest items,
         s.events ++ runTrace s.current_index items
           ++ [.finished dest (s.zip_files_downloaded ++ pathsOf dest items)]⟩ := by
  intro items
  induction items with
  | nil =>
      intro dest s hc
      rw [downloadGo, deliverCancel_never, emitFinished]
      obtain ⟨ci, cb, zf, ev⟩ := s
      simp only at hc
      subst hc
      simp [pathsOf, runTrace]
  | cons it rest ih =>
      intro dest s hc
      obtain ⟨u, o⟩ := it
      rw [downloadGo, deliverCancel_never]
      rw [if_neg (by simp [hc])]
      have hmid : (CancelMoment.never : CancelMoment) ≠ .mid s.current_index := by
        intro h
        exact CancelMoment.noConfusion h
      rw [itemEffect_of_not_mid _ _ _ _ _ hmid]
      have hrec := ih dest
        { s with
          current_index := s.current_index + 1,
          zip_files_downloaded := s.zip_files_downloaded ++
            (if o = ItemOutcome.saveOk then [joinPath dest (basename u)] else []),
          events := s.events ++ itemTrace s.current_index (u, o) } hc
      rw [hrec]
      rw [pathsOf_cons, runTrace]
      simp only [DState.mk.injEq, List.length_cons, List.append_assoc]
      refine ⟨by omega, by trivial, by simp, by simp⟩

/-- Characterization of a run cancelled between items: with `cancel()`
taking effect before activation `n = current_index + k`, the first `k`
items are processed normally, then the run stops — without starting
item `k` — and emits the terminal `finished` once, carrying the
successful paths of the first `k` items in order. -/
theorem downloadGo_before :
    ∀ (k : Nat) (items : List Item) (dest : String) (s : DState) (n : Nat),
      s.canceled = false → k ≤ items.length → n = s.current_index + k →
      downloadGo (.before n) dest items s =
        ⟨s.current_index + k, true,
         s.zip_files_downloaded ++ pathsOf dest (items.take k),
         s.events ++ runTrace s.current_index (items.take k)
           ++ [.finished dest
                (s.zip_files_downloaded ++ pathsOf dest (items.take k))]⟩ := by
  intro k
  induction k with
  | zero =>
      intro items dest s n hc hk hn
      have hfire : (CancelMoment.before n : CancelMoment) = .before s.current_index := by
        simp [hn]
      cases items with
      | nil =>
          rw [downloadGo, hfire, deliverCancel_fire, emitFinished]
          obtain ⟨ci, cb, zf, ev⟩ := s
          simp only at hc
          subst hc
          simp [pathsOf, runTrace]
      | cons it rest =>
          obtain ⟨u, o⟩ := it
          rw [downloadGo, hfire, deliverCancel_fire]
          rw [if_pos rfl]
          rw [emitFinished]
          obtain ⟨ci, cb, zf, ev⟩ := s
          simp only at hc
          subst hc
          simp [pathsOf, runTrace]
  | succ k ih =>
      intro items dest s n hc hk hn
      cases items with
      | nil => simp at hk
      | cons it rest =>
          obtain ⟨u, o⟩ := it
          rw [downloadGo]
          have hne : (CancelMoment.before n : CancelMoment) ≠ .before s.current_index := by
            simp [hn]
          rw [deliverCancel_of_ne _ _ hne]
          rw [if_neg (by simp [hc])]
          have hmid : (CancelMoment.before n : CancelMoment) ≠ .mid s.current_index := by
            intro h
            exact CancelMoment.noConfusion h
          rw [itemEffect_of_not_mid _ _ _ _ _ hmid]
          have hrec := ih rest dest
            { s with
              current_index := s.current_index + 1,
              zip_files_downloaded := s.zip_files_downloaded ++
                (if o = ItemOutcome.saveOk then [joinPath dest (basename u)] else []),
              events := s.events ++ itemTrace s.current_index (u, o) } n hc
            (by simpa using hk) (by simp; omega)
          rw [hrec]
          rw [List.take_succ_cons, pathsOf_cons, runTrace]
          simp only [DState.mk.injEq, List.append_assoc]
          refine ⟨by omega, by trivial, by simp, by simp⟩

/-! Lemmas for the spatial analysis. -/

theorem or_cond_iff_inter (a b : Geom) :
    (gWithin a b || gIntersects a b) = true ↔ (a ∩ b).Nonempty := by
  simp only [gWithin, gIntersects, Bool.or_eq_true, decide_eq_true_eq]
  constructor
  · rintro (⟨⟨x, hx⟩, hsub⟩ | hint)
    · exact ⟨x, Finset.mem_inter.mpr ⟨hx, hsub hx⟩⟩
    · exact hint
  · intro h
    exact Or.inr h

theorem rowForCell_some_iff (i : Nat) (pg : Geom) (gc : Geom × String)
    (c : String) :
    (∃ r, rowForCell i pg gc = some r ∧ r.tile_code = c) ↔
      ((pg ∩ gc.1).Nonempty ∧ gc.2 = c) := by
  unfold rowForCell
  by_cases h1 : gIsEmpty gc.1 = true
  · have hg : gc.1 = ∅ := by simpa [gIsEmpty] using h1
    rw [if_pos h1]
    simp [hg]
  · by_cases h2 : gWithin pg gc.1 = true
    · have hint : (pg ∩ gc.1).Nonempty := by
        have hw : pg.Nonempty ∧ pg ⊆ gc.1 := by simpa [gWithin] using h2
        obtain ⟨⟨x, hx⟩, hsub⟩ := hw
        exact ⟨x, Finset.mem_inter.mpr ⟨hx, hsub hx⟩⟩
      simp [h1, h2, hint]
    · by_cases h3 : gIntersects pg gc.1 = true
      · have hint : (pg ∩ gc.1).Nonempty := by simpa [gIntersects] using h3
        simp [h1, h2, h3, hint]
      · have hnint : ¬(pg ∩ gc.1).Nonempty := by simpa [gIntersects] using h3
        simp [h1, h2, h3, hnint]

theorem mem_analyzeRows_code :
    ∀ (polys : List Geom) (i : Nat) (grid : List (Geom × String)) (c : String),
      c ∈ (analyzeRowsAux i polys grid).map AnalysisRow.tile_code ↔
        ∃ pg ∈ polys, ∃ gc ∈ grid, (pg ∩ gc.1).Nonempty ∧ gc.2 = c := by
  intro polys
  induction polys with
  | nil => intro i grid c; simp [analyzeRowsAux]
  | cons pg ps ih =>
      intro i grid c
      rw [analyzeRowsAux]
      by_cases hpg : gIsEmpty pg = true
      · have hempty : pg = ∅ := by simpa [gIsEmpty] using hpg
        rw [if_pos hpg]
        simp only [List.nil_append, ih, List.mem_cons]
        constructor
        · rintro ⟨p, hp, rest⟩
          exact ⟨p, Or.inr hp, rest⟩
        · rintro ⟨p, hp | hp, gc, hgc, hint, hc⟩
          · rw [hp, hempty] at hint
            simp at hint
          · exact ⟨p, hp, gc, hgc, hint, hc⟩
      · rw [if_neg hpg]
        simp only [List.map_append, List.mem_append, ih,
          List.mem_cons, List.mem_map, List.mem_filterMap]
        constructor
        · rintro (⟨r, ⟨gc, hgc, hrow⟩, hc⟩ | ⟨p, hp, rest⟩)
          · have := (rowForCell_some_iff i pg gc c).mp ⟨r, hrow, hc⟩
            exact ⟨pg, Or.inl rfl, gc, hgc, this⟩
          · exact ⟨p, Or.inr hp, rest⟩
        · rintro ⟨p, hp | hp, gc, hgc, hint, hc⟩
          · left
            rw [hp] at hint
            obtain ⟨r, hrow, hrc⟩ := (rowForCell_some_iff i pg gc c).mpr ⟨hint, hc⟩
            exact ⟨r, ⟨gc, hgc, hrow⟩, hrc⟩
          · right
            exact ⟨p, hp, gc, hgc, hint, hc⟩

theorem mem_polygonRegion (polys : List Geom) (x : Int × Int) :
    x ∈ polygonRegion polys ↔ ∃ p ∈ polys, x ∈ p := by
  induction polys with
  | nil => simp [polygonRegion]
  | cons p ps ih =>
      simp only [polygonRegion, List.foldr_cons, Finset.mem_union, List.mem_cons]
      rw [show (List.foldr (· ∪ ·) ∅ ps : Geom) = polygonRegion ps from rfl, ih]
      constructor
      · rintro (hx | ⟨q, hq, hxq⟩)
        · exact ⟨p, Or.inl rfl, hx⟩
        · exact ⟨q, Or.inr hq, hxq⟩
      · rintro ⟨q, hq | hq, hxq⟩
        · rw [hq] at hxq
          exact Or.inl hxq
        · exact Or.inr ⟨q, hq, hxq⟩

theorem inter_region_iff (polys : List Geom) (g : Geom) :
    (g ∩ polygonRegion polys).Nonempty ↔
      ∃ pg ∈ polys, (pg ∩ g).Nonempty := by
  constructor
  · rintro ⟨x, hx⟩
    rw [Finset.mem_inter] at hx
    obtain ⟨p, hp, hxp⟩ := (mem_polygonRegion polys x).mp hx.2
    exact ⟨p, hp, ⟨x, Finset.mem_inter.mpr ⟨hxp, hx.1⟩⟩⟩
  · rintro ⟨p, hp, x, hx⟩
    rw [Finset.mem_inter] at hx
    exact ⟨x, Finset.mem_inter.mpr
      ⟨hx.2, (mem_polygonRegion polys x).mpr ⟨p, hp, hx.1⟩⟩⟩

theorem runDownload_never_paths (items : List Item) (dest : String) :
    (runDownload items dest .never).zip_files_downloaded =
      pathsOf dest items := by
  rw [runDownload, downloadGo_never items dest _ rfl]
  simp

theorem runDownload_never_errors (items : List Item) (dest : String) :
    (runDownload items dest .never).events.countP isDError =
      List.countP isDError (runTrace 0 items) := by
  rw [runDownload, downloadGo_never items dest _ rfl]
  simp [List.countP_append, isDError]

/-! Claim theorems. -/

/-- C1 (failing input): extracting two payload files both named `a.tif`
in the same run into an empty destination directory.  `move_tif_files`
appends `dest_path` to `self.unzip_files` BEFORE the collision-renaming
loop runs, so the result list reported by the terminal `finished` event
records the pre-collision path `a.tif` twice (a duplicate), while the
files are actually moved to the two distinct paths `a.tif` and
`a_1.tif`.  This contradicts the claim that every recorded destination
path equals the final moved path and that the two recorded paths are
distinct with the second suffixed `_1`. -/
theorem extract_records_precollision_path :
    (runUnzip [.ok [⟨"a", ".tif"⟩], .ok [⟨"a", ".tif"⟩]] ∅).unzip_files =
      [⟨"a", none, ".tif"⟩, ⟨"a", none, ".tif"⟩] ∧
    (runUnzip [.ok [⟨"a", ".tif"⟩], .ok [⟨"a", ".tif"⟩]] ∅).fs =
      {⟨"a", none, ".tif"⟩, ⟨"a", some 1, ".tif"⟩} ∧
    ¬ (runUnzip [.ok [⟨"a", ".tif"⟩], .ok [⟨"a", ".tif"⟩]] ∅).unzip_files.Nodup := by
  decide

/-- C2 (counterexample): one archive yielding two payload files.  After
it is processed the index is 1 but the recorded destination-path list
has length 2, so `len(destination paths) <= archives processed so far`
fails. -/
theorem extract_list_exceeds_archives_processed :
    (runUnzip [.ok [⟨"a", ".tif"⟩, ⟨"b", ".tif"⟩]] ∅).current_index = 1 ∧
    (runUnzip [.ok [⟨"a", ".tif"⟩, ⟨"b", ".tif"⟩]] ∅).unzip_files.length = 2 ∧
    ¬ ((runUnzip [.ok [⟨"a", ".tif"⟩, ⟨"b", ".tif"⟩]] ∅).unzip_files.length ≤
        (runUnzip [.ok [⟨"a", ".tif"⟩, ⟨"b", ".tif"⟩]] ∅).current_index) := by
  decide

/-- C2 (amended): at every point of an Extract Stage run — after any
prefix of `k` archives — the recorded destination-path list has length
equal to the total number of destination-path appends performed so far
(`zCount` per archive): every payload file of an archive whose
relocation completed, none for a corrupt archive or a failure before
relocation starts, and — when `shutil.move` raises partway through an
archive — the files already relocated plus the failing one, whose path
was appended before the move.  The list can therefore exceed the number
of archives processed.  An archive yielding zero payload files appends
nothing while the index still advances by exactly one per archive
processed.  The final concrete conjunct exhibits the partial-failure
case: two payload files with the move failing on the second leave both
paths recorded but only the first file moved. -/
theorem extract_list_length_eq_append_total (zips : List ZipOutcome)
    (fs0 : Finset DPath) (k : Nat) :
    (unzipSteps (zips.take k) (initU zips fs0)).unzip_files.length =
      appendTotal (zips.take k) ∧
    (unzipSteps (zips.take k) (initU zips fs0)).current_index =
      (zips.take k).length ∧
    (runUnzip zips fs0).unzip_files.length = appendTotal zips ∧
    (runUnzip [.failMoving [⟨"a", ".tif"⟩, ⟨"b", ".tif"⟩] 1] ∅).unzip_files =
      [⟨"a", none, ".tif"⟩, ⟨"b", none, ".tif"⟩] ∧
    (runUnzip [.failMoving [⟨"a", ".tif"⟩, ⟨"b", ".tif"⟩] 1] ∅).fs =
      {⟨"a", none, ".tif"⟩} := by
  refine ⟨?_, ?_, ?_, by decide, by decide⟩
  · rw [unzipSteps_len]
    simp [initU]
  · rw [unzipSteps_current_index]
    simp [initU]
  · rw [runUnzip, unzipGo_unzip_files, unzipSteps_len]
    simp [initU]

/-- C4 (failing input): a single corrupt archive.  The run completes
(the terminal `finished` event is emitted exactly once), yet the
temporary extraction directory created for the corrupt archive is still
present afterwards, because `cleanup_temp_dir` sits inside the `try`
body and is skipped when `extract_zip` raises; by contrast a successful
archive does have its temporary directory removed. -/
theorem extract_corrupt_archive_leaks_temp_dir :
    ((runUnzip [.corrupt] ∅).events.filterMap finOf).length = 1 ∧
    (runUnzip [.corrupt] ∅).temps = {0} ∧
    (runUnzip [.ok [⟨"a", ".tif"⟩]] ∅).temps = ∅ ∧
    (runUnzip [.corrupt] ∅).temps ≠ ∅ := by
  decide

/-- C5 (counterexample): a two-archive Extract Stage run.  Its full
event trace contains no scheduler-turn marker at all — in particular
none between the first archive's `progress` and the second archive's
processing — because `update_progress` calls `unzip_next()` by direct
synchronous recursion; a comparable two-item Fetch Stage run defers
twice via `QTimer.singleShot`.  This refutes "advances on a fresh
scheduling turn following the same discipline as the Fetch Stage". -/
theorem extract_two_archives_no_scheduler_turn :
    (runUnzip [.ok [], .ok []] ∅).events =
      [.errorNoTif 0, .progress 1 2, .errorNoTif 1, .progress 2 2,
       .finished []] ∧
    (runUnzip [.ok [], .ok []] ∅).events.countP isUYield = 0 ∧
    (runDownload [("u", .saveOk), ("v", .saveOk)] "d" .never).events.countP
      isDYield = 2 := by
  refine ⟨rfl, rfl, rfl⟩

/-- C5 (amended): after each archive the Extract Stage advances to the
next archive synchronously, by direct recursion inside the same
scheduling turn — its runs contain no scheduler deferral at all —
unlike the Fetch Stage, which defers once per item via a zero-delay
timer. -/
theorem extract_advances_synchronously_fetch_defers :
    (∀ (zips : List ZipOutcome) (fs0 : Finset DPath),
      (runUnzip zips fs0).events.countP isUYield = 0) ∧
    (∀ (items : List Item) (dest : String),
      (runDownload items dest .never).events.countP isDYield =
        items.length) := by
  constructor
  · intro zips fs0
    rw [runUnzip, unzipGo_events, List.countP_append, unzipSteps_yield]
    simp [initU, isUYield, List.countP_cons]
  · intro items dest
    rw [runDownload, downloadGo_never items dest _ rfl]
    simp [List.countP_append, runTrace_yield_count, isDYield,
      List.countP_cons]

/-- C6: for every list of archives and any initial directory contents,
the Extract Stage's index ends at `M = zips.length`; the `progress`
events are exactly `1, 2, …, M` in order (the index advances by exactly
one per archive, no skips, no repeats), and the terminal `finished`
event is emitted exactly once — regardless of how many archives are
corrupt or fail unexpectedly. -/
theorem extract_index_reaches_total_once (zips : List ZipOutcome)
    (fs0 : Finset DPath) :
    (runUnzip zips fs0).current_index = zips.length ∧
    (runUnzip zips fs0).events.filterMap progOf = List.range' 1 zips.length ∧
    ((runUnzip zips fs0).events.filterMap finOf).length = 1 := by
  refine ⟨?_, ?_, ?_⟩
  · rw [runUnzip, unzipGo_current_index]
    simp [initU]
  · rw [runUnzip, unzipGo_events, List.filterMap_append, unzipSteps_progOf]
    simp [initU, progOf]
  · rw [runUnzip, unzipGo_events, List.filterMap_append, unzipSteps_finOf]
    simp [initU, finOf]

/-- C10: for every finite set of files already existing in the
destination directory, the collision-renaming loop of `move_tif_files`
terminates: run with `card + 2` units of fuel it returns (rather than
running out), trying the suffixes `_1, _2, …` in increasing order, and
the path it settles on — the one `shutil.move` then moves the payload
file to — did not exist before the move. -/
theorem collision_renaming_terminates (fs : Finset DPath) (f : FileName) :
    collisionLoop (fs.card + 2) fs f 1 (mkDest f) = some (findFree fs f) ∧
    findFree fs f ∉ fs ∧
    ∀ s : MoveState, (move_one s f).fs = insert (findFree s.fs f) s.fs := by
  refine ⟨(collisionLoop_findFree fs f).1, (collisionLoop_findFree fs f).2, ?_⟩
  intro s
  rfl

/-- C3 (failing input): one locator, with `cancel()` called while its
transfer is in flight.  `abort()` drives `handle_error`, whose canceled
branch emits the terminal `finished`; the reply's `finished` signal
then runs `handle_finished` → `cleanup_and_continue`, and the deferred
`download_next` sees the flag and emits the terminal `finished` a
second time — contradicting "emitted exactly once, never twice". -/
theorem fetch_cancel_midflight_double_finished :
    (runDownload [("u", .saveOk)] "d" (.mid 0)).events =
      [.file_started (basename "u") 0, .finished "d" [], .file_finished,
       .yieldTurn, .finished "d" []] ∧
    (runDownload [("u", .saveOk)] "d" (.mid 0)).events.countP isDFinished =
      2 := by
  refine ⟨rfl, rfl⟩

/-- C7 (counterexample): one locator, `cancel()` called before any item
starts.  The terminal completed-path list has length 0 < 1 = N, yet no
transport-error or write-error event was emitted during the run. -/
theorem fetch_cancel_shortfall_without_error :
    (runDownload [("u", .saveOk)] "d" (.before 0)).events =
      [.finished "d" []] ∧
    (runDownload [("u", .saveOk)] "d" (.before 0)).zip_files_downloaded.length
      = 0 ∧
    (0 : Nat) < ([("u", ItemOutcome.saveOk)] : List Item).length ∧
    (runDownload [("u", .saveOk)] "d" (.before 0)).events.countP isDError
      = 0 := by
  refine ⟨rfl, rfl, by decide, rfl⟩

/-- C7 (amended): for every list of N locators the terminal
completed-path list has length at most N, and its length is strictly
less than N only if at least one transport-error or write-error event
was emitted during the run OR the run was cancelled. -/
theorem fetch_completed_le_shortfall_needs_error_or_cancel
    (items : List Item) (dest : String) (cancel : CancelMoment) :
    (runDownload items dest cancel).zip_files_downloaded.length ≤
      items.length ∧
    ((runDownload items dest cancel).zip_files_downloaded.length <
        items.length →
      0 < (runDownload items dest cancel).events.countP isDError ∨
        cancel ≠ .never) := by
  constructor
  · have h := downloadGo_paths_le items cancel dest ⟨0, false, [], []⟩
    simpa [runDownload] using h
  · intro hlt
    by_cases hc : cancel = .never
    · subst hc
      left
      rw [runDownload_never_paths] at hlt
      rw [runDownload_never_errors]
      have hsum := pathsOf_length_add_errors items 0 dest
      omega
    · exact Or.inr hc

/-- C7 amended witness: one locator whose transfer fails with a
transport error, no cancellation; the shortfall implies an error event
was emitted. -/
theorem fetch_completed_le_shortfall_needs_error_or_cancel_witness :
    ((runDownload [("u", ItemOutcome.transportErr)] "d"
        .never).zip_files_downloaded.length <
      ([("u", ItemOutcome.transportErr)] : List Item).length) ∧
    (0 < (runDownload [("u", ItemOutcome.transportErr)] "d"
        .never).events.countP isDError ∨
      (CancelMoment.never : CancelMoment) ≠ .never) :=
  ⟨by decide,
   (fetch_completed_le_shortfall_needs_error_or_cancel
      [("u", ItemOutcome.transportErr)] "d" .never).2 (by decide)⟩

/-- C8: cancelling before any item starts yields a terminal event whose
completed-path list is empty; cancelling after the first `k` items have
completed and before item `k` starts yields a terminal event carrying
exactly the successful paths of the first `k` items in order, the
terminal event is emitted exactly once, and no `file_started` event is
emitted for locator `k`. -/
theorem fetch_cancel_boundaries (items : List Item) (dest : String)
    (k : Nat) (hk : k ≤ items.length) :
    (runDownload items dest (.before 0)).events = [.finished dest []] ∧
    (runDownload items dest (.before k)).zip_files_downloaded =
      pathsOf dest (items.take k) ∧
    (runDownload items dest (.before k)).events =
      runTrace 0 (items.take k)
        ++ [.finished dest (pathsOf dest (items.take k))] ∧
    (runDownload items dest (.before k)).events.countP isDFinished = 1 ∧
    ∀ nm, DEvent.file_started nm k ∉
      (runDownload items dest (.before k)).events := by
  have h0 := downloadGo_before 0 items dest ⟨0, false, [], []⟩ 0 rfl
    (Nat.zero_le _) rfl
  have hkch := downloadGo_before k items dest ⟨0, false, [], []⟩ k rfl hk
    (by simp)
  refine ⟨?_, ?_, ?_, ?_, ?_⟩
  · rw [runDownload, h0]
    simp [pathsOf, runTrace]
  · rw [runDownload, hkch]
    simp
  · rw [runDownload, hkch]
    simp
  · rw [runDownload, hkch]
    simp [List.countP_append, runTrace_no_finished, isDFinished,
      List.countP_cons]
  · intro nm hmem
    rw [runDownload, hkch] at hmem
    simp only [List.nil_append, List.mem_append] at hmem
    rcases hmem with h | h
    · have hlt := runTrace_file_started_lt (items.take k) 0 nm k h
      have hlen : (items.take k).length ≤ k := by
        simp [List.length_take]
      omega
    · simp at h

/-- C8 witness: two locators, cancel between item 0's completion and
item 1's start. -/
theorem fetch_cancel_boundaries_witness :
    ((1 : Nat) ≤
        ([("u", ItemOutcome.saveOk), ("v", ItemOutcome.saveOk)] :
          List Item).length) ∧
    ((runDownload [("u", ItemOutcome.saveOk), ("v", ItemOutcome.saveOk)] "d"
        (.before 0)).events = [.finished "d" []] ∧
     (runDownload [("u", ItemOutcome.saveOk), ("v", ItemOutcome.saveOk)] "d"
        (.before 1)).zip_files_downloaded =
       pathsOf "d" (([("u", ItemOutcome.saveOk), ("v", ItemOutcome.saveOk)] :
          List Item).take 1) ∧
     (runDownload [("u", ItemOutcome.saveOk), ("v", ItemOutcome.saveOk)] "d"
        (.before 1)).events =
       runTrace 0 (([("u", ItemOutcome.saveOk), ("v", ItemOutcome.saveOk)] :
          List Item).take 1)
         ++ [.finished "d" (pathsOf "d"
              (([("u", ItemOutcome.saveOk), ("v", ItemOutcome.saveOk)] :
                List Item).take 1))] ∧
     (runDownload [("u", ItemOutcome.saveOk), ("v", ItemOutcome.saveOk)] "d"
        (.before 1)).events.countP isDFinished = 1 ∧
     ∀ nm, DEvent.file_started nm 1 ∉
       (runDownload [("u", ItemOutcome.saveOk), ("v", ItemOutcome.saveOk)] "d"
          (.before 1)).events) :=
  ⟨by decide,
   fetch_cancel_boundaries
     [("u", ItemOutcome.saveOk), ("v", ItemOutcome.saveOk)] "d" 1 (by decide)⟩

/-- C9: for every polygon layer and grid layer (in a common CRS, with
every grid feature carrying its tile code), `analyze_polygon_against_grid`
returns exactly the spec's description — the sorted, duplicate-free
list of the tile codes of those grid cells that are contained in or
intersect the polygon region (`specTileCodes`, modelled from the spec's
words). -/
theorem analyze_matches_spec (polys : List Geom)
    (grid : List (Geom × String)) :
    analyze_polygon_against_grid polys grid = specTileCodes polys grid ∧
    List.Sorted (· ≤ ·) (analyze_polygon_against_grid polys grid) ∧
    (analyze_polygon_against_grid polys grid).Nodup := by
  have hset : ((analyzeRowsAux 0 polys grid).map AnalysisRow.tile_code).toFinset =
      ((grid.filter fun gc =>
          gWithin gc.1 (polygonRegion polys)
            || gIntersects gc.1 (polygonRegion polys)).map Prod.snd).toFinset := by
    ext c
    simp only [List.mem_toFinset]
    rw [mem_analyzeRows_code]
    constructor
    · rintro ⟨pg, hp, gc, hgc, hint, hc⟩
      exact List.mem_map.mpr ⟨gc, List.mem_filter.mpr
        ⟨hgc, (or_cond_iff_inter gc.1 (polygonRegion polys)).mpr
          ((inter_region_iff polys gc.1).mpr ⟨pg, hp, hint⟩)⟩, hc⟩
    · intro h
      obtain ⟨gc, hmem, hc⟩ := List.mem_map.mp h
      obtain ⟨hgc, hcond⟩ := List.mem_filter.mp hmem
      obtain ⟨pg, hp, hint⟩ := (inter_region_iff polys gc.1).mp
        ((or_cond_iff_inter gc.1 (polygonRegion polys)).mp hcond)
      exact ⟨pg, hp, gc, hgc, hint, hc⟩
  refine ⟨?_, ?_, ?_⟩
  · unfold analyze_polygon_against_grid specTileCodes
    rw [hset]
  · exact Finset.sort_sorted _ _
  · exact Finset.sort_nodup _ _

end Topodata
